import Mathlib

/-!
Shallow embedding of SirJonthe/cmd (src/cmd.cpp, src/cmd.h): a minimal
command-line command dispatcher.

Modelling choices:
* C++ `std::string` is modelled by Lean `String` (the source manipulates
  byte strings; every behavior the claims exercise is ASCII, where the two
  notions of character coincide).
* Machine integers are modelled by `Nat`/`Int` with the wraps written
  out: the index arithmetic of `Process` (`i + a->param_count >= argc`,
  `i += a->param_count`, where `i` and `argc` are `int` and
  `param_count` is `uint32_t`) is carried out modulo `2^32` exactly as
  the source's unsigned promotions dictate, and the `int64_t` range
  check of stream extraction is modelled explicitly.  Because the
  wrapped `i += a->param_count` can send the loop backwards, the loop
  need not terminate; it is therefore modelled as a fuel-indexed
  interpreter (`none` = not finished within the given number of
  iterations), and the one undefined-behavior read it can perform
  (`argv[i]` at negative `i`) is a distinguished outcome.
* The observable actions of `Process` (messages printed, handlers invoked)
  are reified as an explicit event trace, returned next to the exit code.
* `std::istringstream` extraction (`sin >> v`) is modelled by the C++
  stream semantics: skip leading whitespace, read an optional sign and a
  maximal digit run; failure (no digits, or out-of-range) sets `result`
  to false.
-/

namespace cc0.cmd

/-- `cc0::cmd::Params` (cmd.cpp:75-86): a borrowed slice of raw argument
strings plus its count.  The count field of the C++ object equals the
length of the wrapped slice in every defined-behavior use, so the model
stores the slice alone and derives the count. -/
structure Params where
  params : List String

/-- `Params::GetCount` (cmd.cpp:78-81). -/
def Params.GetCount (p : Params) : Nat :=
  p.params.length

/-- `cc0::cmd::Param` (cmd.cpp:40-46): wraps a `const char*` that is either
one of the argument strings or the null sentinel (`Param(nullptr)`),
modelled as `Option String` (`none` = null). -/
structure Param where
  m_param : Option String

/-- `Params::operator[]` (cmd.cpp:83-86):
`return i < m_param_count ? Param(m_params[i]) : Param(nullptr);`. -/
def Params.index (p : Params) (i : Nat) : Param :=
  if i < p.GetCount then ⟨p.params.get? i⟩ else ⟨none⟩

/-- `cc0::cmd::Param::Parse<type_t>` (cmd.h:43-48): an extracted value
plus a success flag. -/
structure Parse (α : Type) where
  value : α
  result : Bool
deriving DecidableEq

/-- The six characters `std::istream` skips as whitespace (C locale
`isspace`): space, `\t`, `\n`, vertical tab, form feed, `\r`. -/
def isStreamSpace (c : Char) : Bool :=
  c = ' ' || c = '\t' || c = '\n' || c = '\x0b' || c = '\x0c' || c = '\r'

/-- Stream extraction: an optional single leading `-` or `+`.
Returns (negative?, remaining characters). -/
def splitSign (l : List Char) : Bool × List Char :=
  match l with
  | c :: cs => if c = '-' then (true, cs) else if c = '+' then (false, cs) else (false, l)
  | [] => (false, l)

/-- Stream extraction: the maximal leading run of decimal digits.
Returns (digit run, remaining characters). -/
def takeDigits : List Char → List Char × List Char
  | [] => ([], [])
  | c :: cs =>
    if c.isDigit then
      let p := takeDigits cs
      (c :: p.1, p.2)
    else
      ([], c :: cs)

/-- Value of a digit run, most significant first. -/
def digitsVal (ds : List Char) : Nat :=
  ds.foldl (fun n c => 10 * n + (c.toNat - '0'.toNat)) 0

/-- `std::numeric_limits<int64_t>::max()`, i.e. `2^63 - 1`. -/
def int64Max : Int := 9223372036854775807

/-- `std::numeric_limits<int64_t>::min()`, i.e. `-2^63`. -/
def int64Min : Int := -9223372036854775808

/-- `sin >> v` for a 64-bit signed integer (used by `Param::Int`,
cmd.cpp:48-55, and by `Param::Bool`'s underlying long extraction):
skip whitespace, read an optional sign and a maximal digit run in base 10
(default `dec` base of an `istringstream`).  No digits: fail with value 0
(C++11).  Out of range: fail with the clamped bound (C++11). -/
def extractInt64 (cs : List Char) : Parse Int :=
  let cs1 := cs.dropWhile isStreamSpace
  let sp := splitSign cs1
  let dp := takeDigits sp.2
  if dp.1.isEmpty then
    ⟨0, false⟩
  else
    let mag : Int := (digitsVal dp.1 : Nat)
    let v : Int := if sp.1 then -mag else mag
    if v < int64Min then ⟨int64Min, false⟩
    else if int64Max < v then ⟨int64Max, false⟩
    else ⟨v, true⟩

/-- `Param::Int` (cmd.cpp:48-55) on the wrapped string.  Calling any
conversion on the null sentinel constructs `std::string` from `nullptr`
in the source (undefined behavior), so the model takes the non-null
string. -/
def Param.AsInt (s : String) : Parse Int :=
  extractInt64 s.data

/-- `Param::Bool` (cmd.cpp:66-73): without `boolalpha`, `sin >> bool`
extracts a long; 0 stores false, 1 stores true, any other value stores
true and fails. -/
def Param.AsBool (s : String) : Parse Bool :=
  let p := extractInt64 s.data
  if p.value = 0 then ⟨false, p.result⟩
  else if p.value = 1 then ⟨true, p.result⟩
  else ⟨true, false⟩

/-- After a mantissa, stream extraction of a double accepts an optional
exponent part.  If an `e`/`E` is present, the accumulated buffer includes
it, so the conversion fails unless sign-then-digits follow. -/
def expTailOk (l : List Char) : Bool :=
  match l with
  | [] => true
  | c :: cs =>
    if c = 'e' || c = 'E' then
      let sp := splitSign cs
      let dp := takeDigits sp.2
      !dp.1.isEmpty
    else
      true

/-- The success flag of `sin >> v` for a double (`Param::Real`,
cmd.cpp:57-64): skip whitespace, optional sign, then a mantissa
(digits, with an optional decimal point and further digits; at least one
digit overall) and an optional exponent.  The extracted `double` value is
not modelled (floating point); the claims only concern the flag. -/
def extractRealResult (cs : List Char) : Bool :=
  let cs1 := cs.dropWhile isStreamSpace
  let sp := splitSign cs1
  let d1 := takeDigits sp.2
  match d1.2 with
  | c :: r2 =>
    if c = '.' then
      let d2 := takeDigits r2
      if d1.1.isEmpty && d2.1.isEmpty then false
      else expTailOk d2.2
    else if d1.1.isEmpty then false else expTailOk d1.2
  | [] => if d1.1.isEmpty then false else expTailOk d1.2

/-- `Param::Real`'s `result` field (cmd.cpp:57-64) on the wrapped
string. -/
def Param.AsRealResult (s : String) : Bool :=
  extractRealResult s.data

/-- `Cmd` (cmd.cpp:7-13): the registered descriptor. -/
structure Cmd where
  fn : Params → Bool
  doc : String
  param_count : Nat
  halt_on_fail : Bool

/-- `Cmds().find` followed by the null check (`Command`, cmd.cpp:21-25),
on the registry modelled as an association list. -/
def lookupCmd : List (String × Cmd) → String → Option Cmd
  | [], _ => none
  | (k, v) :: rest, name => if k = name then some v else lookupCmd rest name

/-- `Cmds()[cmd] = ...` (cmd.cpp:107): `std::unordered_map::operator[]`
assignment — overwrite the binding if the key is present, insert it
otherwise. -/
def setCmd : List (String × Cmd) → String → Cmd → List (String × Cmd)
  | [], k, v => [(k, v)]
  | (k0, v0) :: rest, k, v =>
    if k0 = k then (k, v) :: rest else (k0, v0) :: setCmd rest k v

/-- The character transformation of `Register`'s sanitizing loop
(cmd.cpp:102-106): keep `a`-`z`, `A`-`Z`, `0`-`9`, replace anything else
with `-`. -/
def sanitizeChar (c : Char) : Char :=
  if ('a' ≤ c ∧ c ≤ 'z') ∨ ('A' ≤ c ∧ c ≤ 'Z') ∨ ('0' ≤ c ∧ c ≤ '9') then c else '-'

/-- The name sanitizer of `Register` (cmd.cpp:101-106), applied to every
character of the raw name. -/
def sanitize (s : String) : String :=
  ⟨s.data.map sanitizeChar⟩

/-- The registry state: `Cmds()` (cmd.cpp:15-19) plus
`Information().longest_cmd` (cmd.cpp:27-38).  Both are zero-initialized
statics: the map starts empty and `longest_cmd` starts at 0. -/
structure RegState where
  cmds : List (String × Cmd)
  longest_cmd : Nat

/-- The initial registry state. -/
def initState : RegState :=
  ⟨[], 0⟩

/-- One call's worth of arguments to `Register` (cmd.cpp:99). -/
structure RegReq where
  name : String
  fn : Params → Bool
  param_count : Nat
  doc : String
  halt_on_fail : Bool

/-- The descriptor `Cmd{ fn, doc, param_count, halt_on_fail }` built at
cmd.cpp:107. -/
def toCmd (r : RegReq) : Cmd :=
  ⟨r.fn, r.doc, r.param_count, r.halt_on_fail⟩

/-- `cc0::cmd::Register` (cmd.cpp:99-110): sanitize the name, overwrite
the binding, raise `longest_cmd` to `name length + 3` if larger, return
true. -/
def Register (st : RegState) (r : RegReq) : Bool × RegState :=
  let cmd := sanitize r.name
  let longest :=
    if cmd.length + 3 > st.longest_cmd then cmd.length + 3 else st.longest_cmd
  (true, ⟨setCmd st.cmds cmd (toCmd r), longest⟩)

/-- A sequence of `Register` calls, run left to right. -/
def registerAll (st : RegState) : List RegReq → RegState
  | [] => st
  | r :: rs => registerAll (Register st r).2 rs

/-- The number of alignment spaces one `help` line prints for a command
name (cmd.cpp:147): `longest_cmd - name.size()` in `uint64_t`
arithmetic; on `Nat` the two agree whenever no underflow occurs. -/
def helpPadding (st : RegState) (name : String) : Nat :=
  st.longest_cmd - name.length

/-- One observable action of `Process`: an `unrecognized command`
message, a `too few parameters` message, or a handler invocation with
its parameter slice and returned flag. -/
inductive Event where
  | unrecognized : String → Event
  | tooFew : String → Event
  | invoked : String → List String → Bool → Event
deriving DecidableEq

/-- `2^32`: the modulus of the source's unsigned 32-bit arithmetic. -/
def U32 : Nat := 4294967296

/-- Conversion of a value already reduced mod `2^32` back to a C `int`,
as performed by `i += a->param_count` (cmd.cpp:129): two's complement —
implementation-defined before C++20 but universal in practice, and the
required behavior since C++20. -/
def uint32ToInt (n : Nat) : Int :=
  if n < 2147483648 then (n : Int) else (n : Int) - (U32 : Int)

/-- How one run of the loop of `Process` can end: with a return value,
or by reading `argv` at an index outside `[0, argc)` — undefined
behavior in the source, reachable only through the wrapped
`i += a->param_count` conversion with arities at or above `2^31`. -/
inductive Exit where
  | code : Nat → Exit
  | oobRead : Exit
deriving DecidableEq

/-- The loop of `cc0::cmd::Process` (cmd.cpp:112-133) over the loop
counter `i` (a C `int`, modelled as `Int`) and the accumulator
`success`, with the source's 32-bit unsigned arithmetic written out:

* `argc` is `argv.length` under the hosted `main` contract, and being a
  nonnegative `int` it is its own unsigned conversion.
* `i + a->param_count >= argc` (cmd.cpp:123) promotes `i` (here always
  in `[0, argc)`) to `unsigned int` and compares modulo `2^32`:
  `(i.toNat + a.param_count) % U32 ≥ argv.length`.
* `i += a->param_count` (cmd.cpp:129, reached in the too-few branch as
  well) followed by the loop's `++i` yields
  `uint32ToInt ((i.toNat + a.param_count) % U32) + 1`.
* Handlers receive the view `Params(argv + i + 1, a->param_count)`; the
  model hands the handler the tokens that actually follow in `argv`.
  When `param_count` exceeds them — possible only when the arity check
  wrapped — any in-handler access past those tokens reads past `argv`
  in the source (`argv[argc]` is the null pointer, anything further is
  undefined), so handlers doing that lie outside the model.
* Reading `argv[i]` at negative `i` is undefined behavior, returned as
  `Exit.oobRead`; the unreachable `none` arm of the (guarded, hence
  in-bounds) token fetch is mapped to the same constructor.

The `fuel` argument bounds the number of iterations: `none` means the
run was not finished within `fuel` steps (the wrapped increment can
make the loop run forever, e.g. by re-processing the same token). -/
def processLoopW (cmds : List (String × Cmd)) (halt_on_unrecognized : Bool)
    (argv : List String) : Nat → Int → Bool → Option (Exit × List Event)
  | 0, _, _ => none
  | fuel + 1, i, success =>
    if i < (argv.length : Int) then
      if i < 0 then some (Exit.oobRead, [])
      else
        match argv[i.toNat]? with
        | none => some (Exit.oobRead, [])
        | some tok =>
          match lookupCmd cmds tok with
          | none =>
            if halt_on_unrecognized then some (Exit.code 1, [Event.unrecognized tok])
            else
              Option.map (fun r => (r.1, Event.unrecognized tok :: r.2))
                (processLoopW cmds halt_on_unrecognized argv fuel (i + 1) success)
          | some a =>
            if (i.toNat + a.param_count) % U32 ≥ argv.length then
              Option.map (fun r => (r.1, Event.tooFew tok :: r.2))
                (processLoopW cmds halt_on_unrecognized argv fuel
                  (uint32ToInt ((i.toNat + a.param_count) % U32) + 1) success)
            else
              let ps := (argv.drop (i.toNat + 1)).take a.param_count
              if a.fn ⟨ps⟩ then
                Option.map (fun r => (r.1, Event.invoked tok ps true :: r.2))
                  (processLoopW cmds halt_on_unrecognized argv fuel
                    (uint32ToInt ((i.toNat + a.param_count) % U32) + 1) success)
              else if a.halt_on_fail then
                some (Exit.code 1, [Event.invoked tok ps false])
              else
                Option.map (fun r => (r.1, Event.invoked tok ps false :: r.2))
                  (processLoopW cmds halt_on_unrecognized argv fuel
                    (uint32ToInt ((i.toNat + a.param_count) % U32) + 1) false)
    else
      some (Exit.code (if success then 0 else 1), [])

/-- `cc0::cmd::Process` (cmd.cpp:112-133): run the loop from `i = 1`
(skipping the program name, `argv[0]`) with `success = true`. -/
def Process (cmds : List (String × Cmd)) (halt_on_unrecognized : Bool)
    (argv : List String) (fuel : Nat) : Option (Exit × List Event) :=
  processLoopW cmds halt_on_unrecognized argv fuel 1 true

/-- Spec-side: the most recent request in a registration sequence whose
sanitized name is `k` (the spec's "most recently registered descriptor
for that sanitized name"). -/
def lastMatch (k : String) : List RegReq → Option RegReq
  | [] => none
  | r :: rs =>
    match lastMatch k rs with
    | some r2 => some r2
    | none => if sanitize r.name = k then some r else none

/-- True when the list does not begin with a decimal digit (so a maximal
digit run read just before it cannot be extended). -/
def headNotDigit : List Char → Bool
  | [] => true
  | c :: _ => !c.isDigit

/-- Spec-side: the shapes an optional sign prefix can take. -/
def SignChars (sgn : List Char) : Prop :=
  sgn = [] ∨ sgn = ['+'] ∨ sgn = ['-']

/-- The multiplicative effect of an optional sign prefix. -/
def signFactor (sgn : List Char) : Int :=
  if sgn = ['-'] then -1 else 1

/-- Spec-side: the string begins — after a run of stream whitespace and
an optional sign — with a nonempty maximal digit run denoting `v`, and
`v` fits `int64_t`; the rest of the string is arbitrary trailing text. -/
def IntRepPrefix (s : String) (v : Int) : Prop :=
  ∃ ws sgn ds rest,
    s.data = ws ++ sgn ++ ds ++ rest ∧
    (∀ c ∈ ws, isStreamSpace c = true) ∧
    SignChars sgn ∧
    ds ≠ [] ∧ (∀ c ∈ ds, c.isDigit = true) ∧
    headNotDigit rest = true ∧
    v = signFactor sgn * (digitsVal ds : Int) ∧
    int64Min ≤ v ∧ v ≤ int64Max

/-- A handler that always succeeds (like the builtin `version`). -/
def alwaysTrue : Params → Bool := fun _ => true

/-- A handler that always reports failure. -/
def alwaysFalse : Params → Bool := fun _ => false

/-- A registry with a two-parameter command `a` and a zero-parameter
command `b`. -/
def pairCmdReg : List (String × Cmd) :=
  [("a", ⟨alwaysTrue, "", 2, false⟩), ("b", ⟨alwaysTrue, "", 0, false⟩)]

/-- A registry with a failing `halt_on_fail` command followed by an
ordinary command (the spec's `must_pass` / `another_cmd` scenario). -/
def mustPassReg : List (String × Cmd) :=
  [("must-pass", ⟨alwaysFalse, "", 0, true⟩), ("another-cmd", ⟨alwaysTrue, "", 0, false⟩)]

/-- A registration request whose raw name is empty. -/
def emptyNameReq : RegReq :=
  ⟨"", alwaysTrue, 0, "", false⟩

/-- A registration request whose raw name contains a space. -/
def spacedNameReq : RegReq :=
  ⟨"a b", alwaysTrue, 0, "doc", false⟩

/-! ### The name sanitizer -/

/-- The source's three range tests keep exactly the ASCII alphanumeric
characters. -/
theorem sanitizeChar_eq_alphanum (c : Char) :
    sanitizeChar c = if c.isAlphanum then c else '-' := by
  have hiff : (('a' ≤ c ∧ c ≤ 'z') ∨ ('A' ≤ c ∧ c ≤ 'Z') ∨ ('0' ≤ c ∧ c ≤ '9')) ↔
      c.isAlphanum = true := by
    simp only [Char.isAlphanum, Char.isAlpha, Char.isUpper, Char.isLower, Char.isDigit,
      Bool.or_eq_true, Bool.and_eq_true, decide_eq_true_eq, ge_iff_le, Char.le_def]
    constructor
    · rintro (⟨h1, h2⟩ | ⟨h1, h2⟩ | ⟨h1, h2⟩)
      · exact Or.inl (Or.inr ⟨h1, h2⟩)
      · exact Or.inl (Or.inl ⟨h1, h2⟩)
      · exact Or.inr ⟨h1, h2⟩
    · rintro ((⟨h1, h2⟩ | ⟨h1, h2⟩) | ⟨h1, h2⟩)
      · exact Or.inr (Or.inl ⟨h1, h2⟩)
      · exact Or.inl ⟨h1, h2⟩
      · exact Or.inr (Or.inr ⟨h1, h2⟩)
  by_cases h : ('a' ≤ c ∧ c ≤ 'z') ∨ ('A' ≤ c ∧ c ≤ 'Z') ∨ ('0' ≤ c ∧ c ≤ '9')
  · rw [sanitizeChar, if_pos h, if_pos (hiff.mp h)]
  · rw [sanitizeChar, if_neg h, if_neg ?_]
    intro hb
    exact h (hiff.mpr hb)

/-- Sanitizing a character twice is the same as sanitizing it once. -/
theorem sanitizeChar_idem (c : Char) :
    sanitizeChar (sanitizeChar c) = sanitizeChar c := by
  by_cases h : ('a' ≤ c ∧ c ≤ 'z') ∨ ('A' ≤ c ∧ c ≤ 'Z') ∨ ('0' ≤ c ∧ c ≤ '9')
  · have h1 : sanitizeChar c = c := by rw [sanitizeChar, if_pos h]
    rw [h1]
    exact h1
  · have h1 : sanitizeChar c = '-' := by rw [sanitizeChar, if_neg h]
    rw [h1]
    decide

/-- Claim C6 (confirmed): the sanitizer preserves length, keeps each
character exactly when it is an ASCII letter or digit (replacing it by
`-` otherwise), and is idempotent. -/
theorem C6_sanitize_shape (s : String) :
    (sanitize s).length = s.length ∧
    (∀ i : Nat, (sanitize s).data.get? i =
      (s.data.get? i).map (fun c => if c.isAlphanum then c else '-')) ∧
    sanitize (sanitize s) = sanitize s := by
  refine ⟨?_, ?_, ?_⟩
  · exact List.length_map s.data sanitizeChar
  · intro i
    simp only [sanitize, List.get?_eq_getElem?, List.getElem?_map]
    cases s.data[i]? with
    | none => rfl
    | some c => simp [sanitizeChar_eq_alphanum]
  · have h2 : (s.data.map sanitizeChar).map sanitizeChar = s.data.map sanitizeChar := by
      rw [List.map_map]
      exact List.map_congr_left (fun c _ => sanitizeChar_idem c)
    show String.mk ((s.data.map sanitizeChar).map sanitizeChar) = String.mk (s.data.map sanitizeChar)
    rw [h2]

/-! ### The parameter view -/

/-- Claim C8 (confirmed): indexing a `Params` view in range returns the
raw string stored at that position; indexing out of range returns the
null-sentinel `Param` and cannot fail. -/
theorem C8_params_index (p : Params) (i : Nat) :
    (∀ h : i < p.GetCount, p.index i = ⟨some (p.params.get ⟨i, h⟩)⟩) ∧
    (p.GetCount ≤ i → p.index i = ⟨none⟩) := by
  constructor
  · intro h
    rw [Params.index, if_pos h, List.get?_eq_get h]
  · intro h
    rw [Params.index, if_neg (by omega)]

/-- Witness for C8 at a concrete two-element view. -/
theorem C8_params_index_witness :
    (Params.mk ["x", "y"]).index 1 = ⟨some "y"⟩ ∧
    (Params.mk ["x", "y"]).index 5 = ⟨none⟩ :=
  ⟨(C8_params_index ⟨["x", "y"]⟩ 1).1 (by decide),
   (C8_params_index ⟨["x", "y"]⟩ 5).2 (by decide)⟩

/-! ### The registry -/

/-- `unordered_map::operator[]` assignment then `find`: looking up the
written key sees the new descriptor, any other key is untouched. -/
theorem lookup_setCmd (m : List (String × Cmd)) (k : String) (v : Cmd) (k2 : String) :
    lookupCmd (setCmd m k v) k2 = if k = k2 then some v else lookupCmd m k2 := by
  induction m with
  | nil => rfl
  | cons hd tl ih =>
    obtain ⟨k0, v0⟩ := hd
    simp only [setCmd]
    by_cases h : k0 = k
    · subst h
      simp only [if_pos rfl, lookupCmd]
      split_ifs <;> rfl
    · rw [if_neg h]
      simp only [lookupCmd, ih]
      split_ifs <;> simp_all

/-- Looking up after a sequence of registrations sees the most recent
matching registration, or falls through to the initial state. -/
theorem lookup_registerAll (rs : List RegReq) (st : RegState) (k : String) :
    lookupCmd (registerAll st rs).cmds k =
      Option.elim (lastMatch k rs) (lookupCmd st.cmds k) (fun r => some (toCmd r)) := by
  induction rs generalizing st with
  | nil => simp [registerAll, lastMatch]
  | cons r rs ih =>
    show lookupCmd (registerAll (Register st r).2 rs).cmds k = _
    rw [ih]
    cases h : lastMatch k rs with
    | some r2 => simp [lastMatch, h]
    | none =>
      simp only [lastMatch, h, Option.elim]
      show lookupCmd (setCmd st.cmds (sanitize r.name) (toCmd r)) k = _
      rw [lookup_setCmd]
      by_cases hk : sanitize r.name = k <;> simp [hk]

/-- Claim C5 (confirmed): after any sequence of `Register` calls,
looking up a sanitized name yields exactly the descriptor of the most
recent registration with that sanitized name, and `Register` always
returns true. -/
theorem C5_register_last_wins :
    (∀ (reqs : List RegReq) (name : String),
      lookupCmd (registerAll initState reqs).cmds (sanitize name) =
        Option.map toCmd (lastMatch (sanitize name) reqs)) ∧
    (∀ (st : RegState) (r : RegReq), (Register st r).1 = true) := by
  constructor
  · intro reqs name
    rw [lookup_registerAll]
    cases lastMatch (sanitize name) reqs <;> simp [initState, lookupCmd]
  · intro st r
    rfl

/-- A key of the map after an `operator[]` write is the written key or a
key that was already present. -/
theorem mem_keys_setCmd {m : List (String × Cmd)} {k : String} {v : Cmd} {k2 : String}
    (h : k2 ∈ (setCmd m k v).map Prod.fst) : k2 = k ∨ k2 ∈ m.map Prod.fst := by
  induction m with
  | nil =>
    simp [setCmd] at h
    exact Or.inl h
  | cons hd tl ih =>
    obtain ⟨k0, v0⟩ := hd
    simp only [setCmd] at h
    by_cases hk : k0 = k
    · subst hk
      rw [if_pos rfl] at h
      simp at h
      rcases h with h | h
      · exact Or.inl h
      · exact Or.inr (by simp [h])
    · rw [if_neg hk] at h
      simp at h
      rcases h with h | h
      · exact Or.inr (by simp [h])
      · rcases ih (by simpa using h) with h1 | h1
        · exact Or.inl h1
        · exact Or.inr (by simp; exact Or.inr (by simpa using h1))

/-- Every key of the registry after a sequence of registrations is a key
of the initial registry or the sanitized name of one of the requests. -/
theorem mem_keys_registerAll {rs : List RegReq} {k : String} :
    ∀ st : RegState, k ∈ (registerAll st rs).cmds.map Prod.fst →
      k ∈ st.cmds.map Prod.fst ∨ ∃ r ∈ rs, k = sanitize r.name := by
  induction rs with
  | nil => exact fun st h => Or.inl h
  | cons r rs ih =>
    intro st h
    rcases ih (Register st r).2 h with h2 | h2
    · rcases mem_keys_setCmd h2 with h3 | h3
      · exact Or.inr ⟨r, List.mem_cons_self r rs, h3⟩
      · exact Or.inl h3
    · obtain ⟨r2, hr2, hk⟩ := h2
      exact Or.inr ⟨r2, List.mem_cons_of_mem r hr2, hk⟩

/-- Every character of a sanitized name is alphanumeric or the
separator. -/
theorem sanitize_chars {s : String} {c : Char} (h : c ∈ (sanitize s).data) :
    c.isAlphanum = true ∨ c = '-' := by
  rcases List.mem_map.mp h with ⟨c0, _, rfl⟩
  rw [sanitizeChar_eq_alphanum]
  by_cases hc : c0.isAlphanum = true
  · rw [if_pos hc]
    exact Or.inl hc
  · rw [if_neg hc]
    exact Or.inr rfl

/-- Sanitizing a non-empty name yields a non-empty name. -/
theorem sanitize_ne_empty {s : String} (h : s ≠ "") : sanitize s ≠ "" := by
  intro he
  apply h
  have hd : s.data.map sanitizeChar = [] := congrArg String.data he
  have hnil : s.data = [] := List.map_eq_nil_iff.mp hd
  cases s with
  | mk data =>
    simp only at hnil
    rw [hnil]

/-- Claim C9 counterexample: registering the empty raw name stores the
empty string as a registry key, so "every key stored in the registry
mapping is non-empty" fails. -/
theorem C9_counterexample :
    (registerAll initState [emptyNameReq]).cmds.map Prod.fst = [""] ∧
    ("" : String).length = 0 :=
  ⟨rfl, rfl⟩

/-- Claim C9 (corrected/amended): after every sequence of `Register`
calls, every stored registry key consists only of alphanumeric
characters and the separator `-`; it is moreover non-empty provided
every registered raw name was non-empty (registering an empty name
stores an empty key). -/
theorem C9_registry_keys (reqs : List RegReq) (k : String)
    (hk : k ∈ (registerAll initState reqs).cmds.map Prod.fst) :
    (∀ c ∈ k.data, c.isAlphanum = true ∨ c = '-') ∧
    ((∀ r ∈ reqs, r.name ≠ "") → k ≠ "") := by
  rcases mem_keys_registerAll initState hk with h | h
  · simp [initState] at h
  · obtain ⟨r, hr, rfl⟩ := h
    refine ⟨fun c hc => sanitize_chars hc, fun hne => sanitize_ne_empty (hne r hr)⟩

/-- Witness for C9 at a concrete registration of the raw name `a b`,
stored as key `a-b`. -/
theorem C9_registry_keys_witness :
    (∀ c ∈ ("a-b" : String).data, c.isAlphanum = true ∨ c = '-') ∧
    ((∀ r ∈ [spacedNameReq], r.name ≠ "") → ("a-b" : String) ≠ "") :=
  C9_registry_keys [spacedNameReq] "a-b" (by decide)

/-- `Register` never decreases `longest_cmd` (cmd.cpp:108). -/
theorem longest_Register_le (st : RegState) (r : RegReq) :
    st.longest_cmd ≤ ((Register st r).2).longest_cmd := by
  show st.longest_cmd ≤
    (if (sanitize r.name).length + 3 > st.longest_cmd then (sanitize r.name).length + 3
      else st.longest_cmd)
  split <;> omega

/-- After `Register`, `longest_cmd` covers the just-registered name
plus 3. -/
theorem longest_Register_self (st : RegState) (r : RegReq) :
    (sanitize r.name).length + 3 ≤ ((Register st r).2).longest_cmd := by
  show (sanitize r.name).length + 3 ≤
    (if (sanitize r.name).length + 3 > st.longest_cmd then (sanitize r.name).length + 3
      else st.longest_cmd)
  split <;> omega

/-- A sequence of registrations never decreases `longest_cmd`. -/
theorem longest_registerAll_le (rs : List RegReq) (st : RegState) :
    st.longest_cmd ≤ (registerAll st rs).longest_cmd := by
  induction rs generalizing st with
  | nil => exact Nat.le_refl _
  | cons r rs ih => exact Nat.le_trans (longest_Register_le st r) (ih _)

/-- After a sequence of registrations, `longest_cmd` covers every
registered sanitized name plus 3. -/
theorem longest_registerAll_mem (rs : List RegReq) (r : RegReq) :
    r ∈ rs → ∀ st : RegState,
      (sanitize r.name).length + 3 ≤ (registerAll st rs).longest_cmd := by
  induction rs with
  | nil =>
    intro h
    cases h
  | cons r0 rs ih =>
    intro h st
    rcases List.mem_cons.mp h with rfl | h2
    · exact Nat.le_trans (longest_Register_self st r) (longest_registerAll_le rs _)
    · exact ih h2 _

/-- Claim C10 (confirmed): `longest_cmd` never decreases across
registrations and always covers every registered sanitized name's
length plus 3; hence the `help` padding computation never underflows and
every help line gets at least 3 alignment spaces. -/
theorem C10_longest_cmd :
    (∀ (st : RegState) (r : RegReq), st.longest_cmd ≤ ((Register st r).2).longest_cmd) ∧
    (∀ (reqs : List RegReq) (r : RegReq), r ∈ reqs →
      (sanitize r.name).length + 3 ≤ (registerAll initState reqs).longest_cmd) ∧
    (∀ (reqs : List RegReq) (k : String),
      k ∈ (registerAll initState reqs).cmds.map Prod.fst →
        k.length + 3 ≤ (registerAll initState reqs).longest_cmd ∧
        3 ≤ helpPadding (registerAll initState reqs) k) := by
  refine ⟨longest_Register_le, fun reqs r h => longest_registerAll_mem reqs r h initState, ?_⟩
  intro reqs k hk
  rcases mem_keys_registerAll initState hk with h | h
  · simp [initState] at h
  · obtain ⟨r, hr, rfl⟩ := h
    have h3 := longest_registerAll_mem reqs r hr initState
    refine ⟨h3, ?_⟩
    show 3 ≤ (registerAll initState reqs).longest_cmd - (sanitize r.name).length
    omega

/-- Witness for C10 at a concrete registration of the raw name `a b`. -/
theorem C10_longest_cmd_witness :
    (sanitize spacedNameReq.name).length + 3 ≤ (registerAll initState [spacedNameReq]).longest_cmd ∧
    ("a-b" : String).length + 3 ≤ (registerAll initState [spacedNameReq]).longest_cmd ∧
    3 ≤ helpPadding (registerAll initState [spacedNameReq]) "a-b" := by
  have h1 := C10_longest_cmd.2.1 [spacedNameReq] spacedNameReq (List.mem_singleton.mpr rfl)
  have h2 := C10_longest_cmd.2.2 [spacedNameReq] "a-b" (by decide)
  exact ⟨h1, h2.1, h2.2⟩

/-! ### The processing loop: one-step unfolding lemmas -/

/-- Loop exit: `i < argc` fails, return the accumulated result. -/
theorem stepExit (cmds : List (String × Cmd)) (hu : Bool) (argv : List String)
    (fuel : Nat) (i : Int) (s : Bool) (hlt : ¬i < (argv.length : Int)) :
    processLoopW cmds hu argv (fuel + 1) i s =
      some (Exit.code (if s then 0 else 1), []) := by
  simp only [processLoopW]
  rw [if_neg hlt]

/-- A negative index: the `argv[i]` read is out of bounds. -/
theorem stepNeg (cmds : List (String × Cmd)) (hu : Bool) (argv : List String)
    (fuel : Nat) (i : Int) (s : Bool) (hlt : i < (argv.length : Int)) (hneg : i < 0) :
    processLoopW cmds hu argv (fuel + 1) i s = some (Exit.oobRead, []) := by
  simp only [processLoopW]
  rw [if_pos hlt, if_pos hneg]

/-- Unrecognized token under `halt_on_unrecognized`: report and return 1. -/
theorem stepUnrecHalt (cmds : List (String × Cmd)) (argv : List String)
    (fuel : Nat) (i : Int) (s : Bool) (tok : String)
    (hlt : i < (argv.length : Int)) (hneg : ¬i < 0)
    (htok : argv[i.toNat]? = some tok) (hlk : lookupCmd cmds tok = none) :
    processLoopW cmds true argv (fuel + 1) i s =
      some (Exit.code 1, [Event.unrecognized tok]) := by
  simp only [processLoopW, htok, hlk]
  rw [if_pos hlt, if_neg hneg, if_pos trivial]

/-- Unrecognized token without the flag: report and advance `i` by 1. -/
theorem stepUnrecCont (cmds : List (String × Cmd)) (argv : List String)
    (fuel : Nat) (i : Int) (s : Bool) (tok : String)
    (hlt : i < (argv.length : Int)) (hneg : ¬i < 0)
    (htok : argv[i.toNat]? = some tok) (hlk : lookupCmd cmds tok = none) :
    processLoopW cmds false argv (fuel + 1) i s =
      Option.map (fun r => (r.1, Event.unrecognized tok :: r.2))
        (processLoopW cmds false argv fuel (i + 1) s) := by
  simp only [processLoopW, htok, hlk]
  rw [if_pos hlt, if_neg hneg, if_neg (by simp)]

/-- The arity check (in wrapped arithmetic) holds: report too-few,
do not invoke the handler, advance by the wrapped `1 + param_count`. -/
theorem stepTooFew (cmds : List (String × Cmd)) (hu : Bool) (argv : List String)
    (fuel : Nat) (i : Int) (s : Bool) (tok : String) (a : Cmd)
    (hlt : i < (argv.length : Int)) (hneg : ¬i < 0)
    (htok : argv[i.toNat]? = some tok) (hlk : lookupCmd cmds tok = some a)
    (hg : (i.toNat + a.param_count) % U32 ≥ argv.length) :
    processLoopW cmds hu argv (fuel + 1) i s =
      Option.map (fun r => (r.1, Event.tooFew tok :: r.2))
        (processLoopW cmds hu argv fuel
          (uint32ToInt ((i.toNat + a.param_count) % U32) + 1) s) := by
  simp only [processLoopW, htok, hlk]
  rw [if_pos hlt, if_neg hneg, if_pos hg]

/-- The arity check fails (handler runs) and the handler succeeds. -/
theorem stepInvokeTrue (cmds : List (String × Cmd)) (hu : Bool) (argv : List String)
    (fuel : Nat) (i : Int) (s : Bool) (tok : String) (a : Cmd)
    (hlt : i < (argv.length : Int)) (hneg : ¬i < 0)
    (htok : argv[i.toNat]? = some tok) (hlk : lookupCmd cmds tok = some a)
    (hg : ¬(i.toNat + a.param_count) % U32 ≥ argv.length)
    (hfn : a.fn ⟨(argv.drop (i.toNat + 1)).take a.param_count⟩ = true) :
    processLoopW cmds hu argv (fuel + 1) i s =
      Option.map (fun r =>
          (r.1, Event.invoked tok ((argv.drop (i.toNat + 1)).take a.param_count) true :: r.2))
        (processLoopW cmds hu argv fuel
          (uint32ToInt ((i.toNat + a.param_count) % U32) + 1) s) := by
  simp only [processLoopW, htok, hlk, hfn]
  rw [if_pos hlt, if_neg hneg, if_neg hg, if_pos trivial]

/-- The handler runs, fails, and its descriptor has `halt_on_fail`:
return 1 on the spot. -/
theorem stepFailHalt (cmds : List (String × Cmd)) (hu : Bool) (argv : List String)
    (fuel : Nat) (i : Int) (s : Bool) (tok : String) (a : Cmd)
    (hlt : i < (argv.length : Int)) (hneg : ¬i < 0)
    (htok : argv[i.toNat]? = some tok) (hlk : lookupCmd cmds tok = some a)
    (hg : ¬(i.toNat + a.param_count) % U32 ≥ argv.length)
    (hfn : a.fn ⟨(argv.drop (i.toNat + 1)).take a.param_count⟩ = false)
    (hhf : a.halt_on_fail = true) :
    processLoopW cmds hu argv (fuel + 1) i s =
      some (Exit.code 1,
        [Event.invoked tok ((argv.drop (i.toNat + 1)).take a.param_count) false]) := by
  simp only [processLoopW, htok, hlk, hfn, hhf]
  rw [if_pos hlt, if_neg hneg, if_neg hg, if_neg (by simp), if_pos trivial]

/-- The handler runs and fails without `halt_on_fail`: record the
failure in the accumulator and advance by the wrapped `1 + param_count`. -/
theorem stepFailCont (cmds : List (String × Cmd)) (hu : Bool) (argv : List String)
    (fuel : Nat) (i : Int) (s : Bool) (tok : String) (a : Cmd)
    (hlt : i < (argv.length : Int)) (hneg : ¬i < 0)
    (htok : argv[i.toNat]? = some tok) (hlk : lookupCmd cmds tok = some a)
    (hg : ¬(i.toNat + a.param_count) % U32 ≥ argv.length)
    (hfn : a.fn ⟨(argv.drop (i.toNat + 1)).take a.param_count⟩ = false)
    (hhf : a.halt_on_fail = false) :
    processLoopW cmds hu argv (fuel + 1) i s =
      Option.map (fun r =>
          (r.1, Event.invoked tok ((argv.drop (i.toNat + 1)).take a.param_count) false :: r.2))
        (processLoopW cmds hu argv fuel
          (uint32ToInt ((i.toNat + a.param_count) % U32) + 1) false) := by
  simp only [processLoopW, htok, hlk, hfn, hhf]
  rw [if_pos hlt, if_neg hneg, if_neg hg, if_neg (by simp), if_neg (by simp)]

/-- An in-range `getElem?` hit bounds the index. -/
theorem lt_of_getElem?_eq_some {argv : List String} {i : Nat} {tok : String}
    (h : argv[i]? = some tok) : i < argv.length := by
  by_contra hn
  rw [List.getElem?_eq_none (by omega)] at h
  exact Option.noConfusion h

/-! ### The processing loop: the claims -/

/-- A completed run of the loop exits with 1 exactly when the
accumulator was already false, an unrecognized command was met under
`halt_on_unrecognized`, or some invoked handler returned false. -/
theorem processLoopW_code_iff (cmds : List (String × Cmd)) (hu : Bool)
    (argv : List String) :
    ∀ (fuel : Nat) (i : Int) (s : Bool) (c : Nat) (t : List Event),
      processLoopW cmds hu argv fuel i s = some (Exit.code c, t) →
      ((c = 1 ↔ (s = false ∨
          (hu = true ∧ ∃ tok, Event.unrecognized tok ∈ t) ∨
          ∃ tok ps, Event.invoked tok ps false ∈ t)) ∧
        (c = 0 ∨ c = 1)) := by
  intro fuel i s
  induction fuel, i, s using processLoopW.induct cmds hu argv with
  | case1 i s =>
    intro c t h
    simp [processLoopW] at h
  | case2 fuel i s hlt hneg =>
    intro c t h
    rw [stepNeg cmds hu argv fuel i s hlt hneg] at h
    simp at h
  | case3 fuel i s hlt hneg hfetch =>
    intro c t h
    simp only [processLoopW, hfetch] at h
    rw [if_pos hlt, if_neg hneg] at h
    simp at h
  | case4 fuel i s hlt hneg tok htok hlk hhu =>
    intro c t h
    subst hhu
    rw [stepUnrecHalt cmds argv fuel i s tok hlt hneg htok hlk] at h
    simp only [Option.some.injEq, Prod.mk.injEq, Exit.code.injEq] at h
    obtain ⟨h1, h2⟩ := h
    subst h2
    subst h1
    exact ⟨by simp, by simp⟩
  | case5 fuel i s hlt hneg tok htok hlk hhu ih =>
    intro c t h
    have hu0 : hu = false := by simpa using hhu
    subst hu0
    rw [stepUnrecCont cmds argv fuel i s tok hlt hneg htok hlk] at h
    rcases hr : processLoopW cmds false argv fuel (i + 1) s with _ | ⟨ex2, t2⟩
    · rw [hr] at h
      simp at h
    · rw [hr] at h
      simp only [Option.map_some', Option.some.injEq, Prod.mk.injEq] at h
      obtain ⟨h1, h2⟩ := h
      subst h2
      rw [h1] at hr
      have hih := ih c t2 hr
      refine ⟨?_, hih.2⟩
      rw [hih.1]
      simp
  | case6 fuel i s hlt hneg tok htok a hlk hg ih =>
    intro c t h
    rw [stepTooFew cmds hu argv fuel i s tok a hlt hneg htok hlk hg] at h
    rcases hr : processLoopW cmds hu argv fuel
        (uint32ToInt ((i.toNat + a.param_count) % U32) + 1) s with _ | ⟨ex2, t2⟩
    · rw [hr] at h
      simp at h
    · rw [hr] at h
      simp only [Option.map_some', Option.some.injEq, Prod.mk.injEq] at h
      obtain ⟨h1, h2⟩ := h
      subst h2
      rw [h1] at hr
      have hih := ih c t2 hr
      refine ⟨?_, hih.2⟩
      rw [hih.1]
      simp
  | case7 fuel i s hlt hneg tok htok a hlk hg ps hfn ih =>
    intro c t h
    have hfn2 : a.fn ⟨(argv.drop (i.toNat + 1)).take a.param_count⟩ = true := hfn
    rw [stepInvokeTrue cmds hu argv fuel i s tok a hlt hneg htok hlk hg hfn2] at h
    rcases hr : processLoopW cmds hu argv fuel
        (uint32ToInt ((i.toNat + a.param_count) % U32) + 1) s with _ | ⟨ex2, t2⟩
    · rw [hr] at h
      simp at h
    · rw [hr] at h
      simp only [Option.map_some', Option.some.injEq, Prod.mk.injEq] at h
      obtain ⟨h1, h2⟩ := h
      subst h2
      rw [h1] at hr
      have hih := ih c t2 hr
      refine ⟨?_, hih.2⟩
      rw [hih.1]
      simp
  | case8 fuel i s hlt hneg tok htok a hlk hg ps hfn hhf =>
    intro c t h
    have hfn2 : a.fn ⟨(argv.drop (i.toNat + 1)).take a.param_count⟩ = false := by
      simpa using hfn
    rw [stepFailHalt cmds hu argv fuel i s tok a hlt hneg htok hlk hg hfn2 hhf] at h
    simp only [Option.some.injEq, Prod.mk.injEq, Exit.code.injEq] at h
    obtain ⟨h1, h2⟩ := h
    subst h2
    subst h1
    exact ⟨by simp, by simp⟩
  | case9 fuel i s hlt hneg tok htok a hlk hg ps hfn hhf ih =>
    intro c t h
    have hfn2 : a.fn ⟨(argv.drop (i.toNat + 1)).take a.param_count⟩ = false := by
      simpa using hfn
    have hhf2 : a.halt_on_fail = false := by simpa using hhf
    rw [stepFailCont cmds hu argv fuel i s tok a hlt hneg htok hlk hg hfn2 hhf2] at h
    rcases hr : processLoopW cmds hu argv fuel
        (uint32ToInt ((i.toNat + a.param_count) % U32) + 1) false with _ | ⟨ex2, t2⟩
    · rw [hr] at h
      simp at h
    · rw [hr] at h
      simp only [Option.map_some', Option.some.injEq, Prod.mk.injEq] at h
      obtain ⟨h1, h2⟩ := h
      subst h2
      rw [h1] at hr
      have hih := ih c t2 hr
      have hc1 : c = 1 := hih.1.mpr (Or.inl rfl)
      subst hc1
      refine ⟨iff_of_true rfl ?_, Or.inr rfl⟩
      exact Or.inr (Or.inr ⟨tok, (argv.drop (i.toNat + 1)).take a.param_count,
        List.mem_cons_self _ _⟩)
  | case10 fuel i s hlt =>
    intro c t h
    rw [stepExit cmds hu argv fuel i s hlt] at h
    simp only [Option.some.injEq, Prod.mk.injEq, Exit.code.injEq] at h
    obtain ⟨h1, h2⟩ := h
    subst h2
    cases s
    · simp only [if_neg (by simp : ¬(false = true))] at h1
      subst h1
      exact ⟨by simp, by simp⟩
    · simp only [if_pos rfl] at h1
      subst h1
      exact ⟨by simp, by simp⟩

/-- Claim C2 (confirmed): whenever `Process` completes with an exit
code, that code is 1 exactly when an unrecognized command was met with
`halt_on_unrecognized = true` or some invoked handler returned false
(the `halt_on_fail` hard stop being a special case of the latter); in
every other completed case — including an argument vector with nothing
beyond the program name, unrecognized commands without the flag, and
skipped too-few-parameters commands — it is 0, and it is always 0
or 1. -/
theorem C2_exit_code (cmds : List (String × Cmd)) (hu : Bool) (argv : List String)
    (fuel : Nat) (c : Nat) (t : List Event)
    (h : Process cmds hu argv fuel = some (Exit.code c, t)) :
    (c = 1 ↔ ((hu = true ∧ ∃ tok, Event.unrecognized tok ∈ t) ∨
      ∃ tok ps, Event.invoked tok ps false ∈ t)) ∧
    (c = 0 ∨ c = 1) := by
  have h2 := processLoopW_code_iff cmds hu argv fuel 1 true c t h
  refine ⟨?_, h2.2⟩
  rw [h2.1]
  simp

/-- Witness for C2: a failing `halt_on_fail` command makes a completed
run return 1 with its invocation in the trace. -/
theorem C2_exit_code_witness :
    ((1 : Nat) = 1 ↔
      ((false = true ∧
        ∃ tok, Event.unrecognized tok ∈ [Event.invoked "must-pass" [] false]) ∨
        ∃ tok ps, Event.invoked tok ps false ∈ [Event.invoked "must-pass" [] false])) ∧
    ((1 : Nat) = 0 ∨ (1 : Nat) = 1) :=
  C2_exit_code mustPassReg false ["prog", "must-pass"] 3 1
    [Event.invoked "must-pass" [] false] (by decide)

/-- Claim C3 (confirmed): when an invoked handler of a command whose
descriptor has `halt_on_fail = true` returns false, the loop returns 1
at that point; the failing invocation is the last event of any run's
trace, so no handler for any later token is ever invoked. -/
theorem C3_halt_on_fail (cmds : List (String × Cmd)) (hu : Bool) (argv : List String)
    (tok : String) (ps : List String) (a : Cmd)
    (hl : lookupCmd cmds tok = some a) (hh : a.halt_on_fail = true) :
    ∀ (fuel : Nat) (i : Int) (s : Bool) (ex : Exit) (t pre post : List Event),
      processLoopW cmds hu argv fuel i s = some (ex, t) →
      t = pre ++ Event.invoked tok ps false :: post →
      post = [] ∧ ex = Exit.code 1 := by
  intro fuel i s
  induction fuel, i, s using processLoopW.induct cmds hu argv with
  | case1 i s =>
    intro ex t pre post h ht
    simp [processLoopW] at h
  | case2 fuel i s hlt hneg =>
    intro ex t pre post h ht
    rw [stepNeg cmds hu argv fuel i s hlt hneg] at h
    simp only [Option.some.injEq, Prod.mk.injEq] at h
    obtain ⟨h1, h2⟩ := h
    subst h2
    simp at ht
  | case3 fuel i s hlt hneg hfetch =>
    intro ex t pre post h ht
    simp only [processLoopW, hfetch] at h
    rw [if_pos hlt, if_neg hneg] at h
    simp only [Option.some.injEq, Prod.mk.injEq] at h
    obtain ⟨h1, h2⟩ := h
    subst h2
    simp at ht
  | case4 fuel i s hlt hneg tok2 htok hlk hhu =>
    intro ex t pre post h ht
    subst hhu
    rw [stepUnrecHalt cmds argv fuel i s tok2 hlt hneg htok hlk] at h
    simp only [Option.some.injEq, Prod.mk.injEq] at h
    obtain ⟨h1, h2⟩ := h
    subst h2
    cases pre with
    | nil =>
      rw [List.nil_append] at ht
      injection ht with ht1 ht2
      simp at ht1
    | cons e pre2 =>
      rw [List.cons_append] at ht
      injection ht with ht1 ht2
      simp at ht2
  | case5 fuel i s hlt hneg tok2 htok hlk hhu ih =>
    intro ex t pre post h ht
    have hu0 : hu = false := by simpa using hhu
    subst hu0
    rw [stepUnrecCont cmds argv fuel i s tok2 hlt hneg htok hlk] at h
    rcases hr : processLoopW cmds false argv fuel (i + 1) s with _ | ⟨ex2, t2⟩
    · rw [hr] at h
      simp at h
    · rw [hr] at h
      simp only [Option.map_some', Option.some.injEq, Prod.mk.injEq] at h
      obtain ⟨h1, h2⟩ := h
      subst h2
      subst h1
      cases pre with
      | nil =>
        rw [List.nil_append] at ht
        injection ht with ht1 ht2
        simp at ht1
      | cons e pre2 =>
        rw [List.cons_append] at ht
        injection ht with ht1 ht2
        exact ih ex2 t2 pre2 post hr ht2
  | case6 fuel i s hlt hneg tok2 htok a2 hlk hg ih =>
    intro ex t pre post h ht
    rw [stepTooFew cmds hu argv fuel i s tok2 a2 hlt hneg htok hlk hg] at h
    rcases hr : processLoopW cmds hu argv fuel
        (uint32ToInt ((i.toNat + a2.param_count) % U32) + 1) s with _ | ⟨ex2, t2⟩
    · rw [hr] at h
      simp at h
    · rw [hr] at h
      simp only [Option.map_some', Option.some.injEq, Prod.mk.injEq] at h
      obtain ⟨h1, h2⟩ := h
      subst h2
      subst h1
      cases pre with
      | nil =>
        rw [List.nil_append] at ht
        injection ht with ht1 ht2
        simp at ht1
      | cons e pre2 =>
        rw [List.cons_append] at ht
        injection ht with ht1 ht2
        exact ih ex2 t2 pre2 post hr ht2
  | case7 fuel i s hlt hneg tok2 htok a2 hlk hg psv hfn ih =>
    intro ex t pre post h ht
    have hfn2 : a2.fn ⟨(argv.drop (i.toNat + 1)).take a2.param_count⟩ = true := hfn
    rw [stepInvokeTrue cmds hu argv fuel i s tok2 a2 hlt hneg htok hlk hg hfn2] at h
    rcases hr : processLoopW cmds hu argv fuel
        (uint32ToInt ((i.toNat + a2.param_count) % U32) + 1) s with _ | ⟨ex2, t2⟩
    · rw [hr] at h
      simp at h
    · rw [hr] at h
      simp only [Option.map_some', Option.some.injEq, Prod.mk.injEq] at h
      obtain ⟨h1, h2⟩ := h
      subst h2
      subst h1
      cases pre with
      | nil =>
        rw [List.nil_append] at ht
        injection ht with ht1 ht2
        simp at ht1
      | cons e pre2 =>
        rw [List.cons_append] at ht
        injection ht with ht1 ht2
        exact ih ex2 t2 pre2 post hr ht2
  | case8 fuel i s hlt hneg tok2 htok a2 hlk hg psv hfn hhf =>
    intro ex t pre post h ht
    have hfn2 : a2.fn ⟨(argv.drop (i.toNat + 1)).take a2.param_count⟩ = false := by
      simpa using hfn
    rw [stepFailHalt cmds hu argv fuel i s tok2 a2 hlt hneg htok hlk hg hfn2 hhf] at h
    simp only [Option.some.injEq, Prod.mk.injEq] at h
    obtain ⟨h1, h2⟩ := h
    subst h2
    cases pre with
    | nil =>
      rw [List.nil_append] at ht
      injection ht with ht1 ht2
      exact ⟨ht2.symm, h1.symm⟩
    | cons e pre2 =>
      rw [List.cons_append] at ht
      injection ht with ht1 ht2
      simp at ht2
  | case9 fuel i s hlt hneg tok2 htok a2 hlk hg psv hfn hhf ih =>
    intro ex t pre post h ht
    have hfn2 : a2.fn ⟨(argv.drop (i.toNat + 1)).take a2.param_count⟩ = false := by
      simpa using hfn
    have hhf2 : a2.halt_on_fail = false := by simpa using hhf
    rw [stepFailCont cmds hu argv fuel i s tok2 a2 hlt hneg htok hlk hg hfn2 hhf2] at h
    rcases hr : processLoopW cmds hu argv fuel
        (uint32ToInt ((i.toNat + a2.param_count) % U32) + 1) false with _ | ⟨ex2, t2⟩
    · rw [hr] at h
      simp at h
    · rw [hr] at h
      simp only [Option.map_some', Option.some.injEq, Prod.mk.injEq] at h
      obtain ⟨h1, h2⟩ := h
      subst h2
      subst h1
      cases pre with
      | nil =>
        rw [List.nil_append] at ht
        injection ht with ht1 ht2
        injection ht1 with hta htb htc
        subst hta
        rw [hl] at hlk
        injection hlk with ha
        rw [ha] at hh
        exact absurd hh (by simp [hhf2])
      | cons e pre2 =>
        rw [List.cons_append] at ht
        injection ht with ht1 ht2
        exact ih ex2 t2 pre2 post hr ht2
  | case10 fuel i s hlt =>
    intro ex t pre post h ht
    rw [stepExit cmds hu argv fuel i s hlt] at h
    simp only [Option.some.injEq, Prod.mk.injEq] at h
    obtain ⟨h1, h2⟩ := h
    subst h2
    simp at ht

/-- Witness for C3: `must-pass` (arity 0, always fails, halt-on-fail)
at the only token of the argument vector. -/
theorem C3_halt_on_fail_witness :
    ([] : List Event) = [] ∧ Exit.code 1 = Exit.code 1 :=
  C3_halt_on_fail mustPassReg false ["prog", "must-pass"] "must-pass" []
    ⟨alwaysFalse, "", 0, true⟩ (by simp [mustPassReg, lookupCmd]) rfl
    3 1 true (Exit.code 1) [Event.invoked "must-pass" [] false] [] []
    (by decide) rfl

/-- Claim C4 (confirmed): with `halt_on_unrecognized = true`, an
unrecognized token makes the loop return 1 on the spot — the
unrecognized report is the final event of any run's trace, so no later
token is looked up or invoked; with `halt_on_unrecognized = false`, the
loop just records the report and advances `i` by exactly 1: its result
is the result on the remaining tokens with the report prepended, so the
unrecognized token alone never produces a nonzero exit code. -/
theorem C4_unrecognized (cmds : List (String × Cmd)) (argv : List String) :
    (∀ (fuel : Nat) (i : Int) (s : Bool) (ex : Exit) (t pre post : List Event)
      (tok : String),
      processLoopW cmds true argv fuel i s = some (ex, t) →
      t = pre ++ Event.unrecognized tok :: post →
      post = [] ∧ ex = Exit.code 1) ∧
    (∀ (fuel : Nat) (i : Nat) (s : Bool) (tok : String),
      argv[i]? = some tok → lookupCmd cmds tok = none →
      processLoopW cmds false argv (fuel + 1) (i : Int) s =
        Option.map (fun r => (r.1, Event.unrecognized tok :: r.2))
          (processLoopW cmds false argv fuel ((i : Int) + 1) s)) := by
  constructor
  · intro fuel i s
    induction fuel, i, s using processLoopW.induct cmds true argv with
    | case1 i s =>
      intro ex t pre post tok h ht
      simp [processLoopW] at h
    | case2 fuel i s hlt hneg =>
      intro ex t pre post tok h ht
      rw [stepNeg cmds true argv fuel i s hlt hneg] at h
      simp only [Option.some.injEq, Prod.mk.injEq] at h
      obtain ⟨h1, h2⟩ := h
      subst h2
      simp at ht
    | case3 fuel i s hlt hneg hfetch =>
      intro ex t pre post tok h ht
      simp only [processLoopW, hfetch] at h
      rw [if_pos hlt, if_neg hneg] at h
      simp only [Option.some.injEq, Prod.mk.injEq] at h
      obtain ⟨h1, h2⟩ := h
      subst h2
      simp at ht
    | case4 fuel i s hlt hneg tok2 htok hlk hhu =>
      intro ex t pre post tok h ht
      rw [stepUnrecHalt cmds argv fuel i s tok2 hlt hneg htok hlk] at h
      simp only [Option.some.injEq, Prod.mk.injEq] at h
      obtain ⟨h1, h2⟩ := h
      subst h2
      cases pre with
      | nil =>
        rw [List.nil_append] at ht
        injection ht with ht1 ht2
        exact ⟨ht2.symm, h1.symm⟩
      | cons e pre2 =>
        rw [List.cons_append] at ht
        injection ht with ht1 ht2
        simp at ht2
    | case5 fuel i s hlt hneg tok2 htok hlk hhu ih =>
      exact absurd rfl hhu
    | case6 fuel i s hlt hneg tok2 htok a2 hlk hg ih =>
      intro ex t pre post tok h ht
      rw [stepTooFew cmds true argv fuel i s tok2 a2 hlt hneg htok hlk hg] at h
      rcases hr : processLoopW cmds true argv fuel
          (uint32ToInt ((i.toNat + a2.param_count) % U32) + 1) s with _ | ⟨ex2, t2⟩
      · rw [hr] at h
        simp at h
      · rw [hr] at h
        simp only [Option.map_some', Option.some.injEq, Prod.mk.injEq] at h
        obtain ⟨h1, h2⟩ := h
        subst h2
        subst h1
        cases pre with
        | nil =>
          rw [List.nil_append] at ht
          injection ht with ht1 ht2
          simp at ht1
        | cons e pre2 =>
          rw [List.cons_append] at ht
          injection ht with ht1 ht2
          exact ih ex2 t2 pre2 post tok hr ht2
    | case7 fuel i s hlt hneg tok2 htok a2 hlk hg psv hfn ih =>
      intro ex t pre post tok h ht
      have hfn2 : a2.fn ⟨(argv.drop (i.toNat + 1)).take a2.param_count⟩ = true := hfn
      rw [stepInvokeTrue cmds true argv fuel i s tok2 a2 hlt hneg htok hlk hg hfn2] at h
      rcases hr : processLoopW cmds true argv fuel
          (uint32ToInt ((i.toNat + a2.param_count) % U32) + 1) s with _ | ⟨ex2, t2⟩
      · rw [hr] at h
        simp at h
      · rw [hr] at h
        simp only [Option.map_some', Option.some.injEq, Prod.mk.injEq] at h
        obtain ⟨h1, h2⟩ := h
        subst h2
        subst h1
        cases pre with
        | nil =>
          rw [List.nil_append] at ht
          injection ht with ht1 ht2
          simp at ht1
        | cons e pre2 =>
          rw [List.cons_append] at ht
          injection ht with ht1 ht2
          exact ih ex2 t2 pre2 post tok hr ht2
    | case8 fuel i s hlt hneg tok2 htok a2 hlk hg psv hfn hhf =>
      intro ex t pre post tok h ht
      have hfn2 : a2.fn ⟨(argv.drop (i.toNat + 1)).take a2.param_count⟩ = false := by
        simpa using hfn
      rw [stepFailHalt cmds true argv fuel i s tok2 a2 hlt hneg htok hlk hg hfn2 hhf] at h
      simp only [Option.some.injEq, Prod.mk.injEq] at h
      obtain ⟨h1, h2⟩ := h
      subst h2
      cases pre with
      | nil =>
        rw [List.nil_append] at ht
        injection ht with ht1 ht2
        simp at ht1
      | cons e pre2 =>
        rw [List.cons_append] at ht
        injection ht with ht1 ht2
        simp at ht2
    | case9 fuel i s hlt hneg tok2 htok a2 hlk hg psv hfn hhf ih =>
      intro ex t pre post tok h ht
      have hfn2 : a2.fn ⟨(argv.drop (i.toNat + 1)).take a2.param_count⟩ = false := by
        simpa using hfn
      have hhf2 : a2.halt_on_fail = false := by simpa using hhf
      rw [stepFailCont cmds true argv fuel i s tok2 a2 hlt hneg htok hlk hg hfn2 hhf2] at h
      rcases hr : processLoopW cmds true argv fuel
          (uint32ToInt ((i.toNat + a2.param_count) % U32) + 1) false with _ | ⟨ex2, t2⟩
      · rw [hr] at h
        simp at h
      · rw [hr] at h
        simp only [Option.map_some', Option.some.injEq, Prod.mk.injEq] at h
        obtain ⟨h1, h2⟩ := h
        subst h2
        subst h1
        cases pre with
        | nil =>
          rw [List.nil_append] at ht
          injection ht with ht1 ht2
          simp at ht1
        | cons e pre2 =>
          rw [List.cons_append] at ht
          injection ht with ht1 ht2
          exact ih ex2 t2 pre2 post tok hr ht2
    | case10 fuel i s hlt =>
      intro ex t pre post tok h ht
      rw [stepExit cmds true argv fuel i s hlt] at h
      simp only [Option.some.injEq, Prod.mk.injEq] at h
      obtain ⟨h1, h2⟩ := h
      subst h2
      simp at ht
  · intro fuel i s tok htok hlk
    have hi : i < argv.length := lt_of_getElem?_eq_some htok
    have hlt : (i : Int) < (argv.length : Int) := by exact_mod_cast hi
    have hneg : ¬(i : Int) < 0 := by omega
    have htok2 : argv[((i : Int)).toNat]? = some tok := by simpa using htok
    exact stepUnrecCont cmds argv fuel (i : Int) s tok hlt hneg htok2 hlk

/-- Witness for C4: `["bogus", ...]` against `pairCmdReg`, under both
settings of the flag. -/
theorem C4_unrecognized_witness :
    (([] : List Event) = [] ∧ Exit.code 1 = Exit.code 1) ∧
    processLoopW pairCmdReg false ["prog", "bogus", "b"] 3 ((1 : Nat) : Int) true =
      Option.map (fun r => (r.1, Event.unrecognized "bogus" :: r.2))
        (processLoopW pairCmdReg false ["prog", "bogus", "b"] 2 (((1 : Nat) : Int) + 1) true) :=
  ⟨(C4_unrecognized pairCmdReg ["prog", "bogus", "b"]).1 3 1 true (Exit.code 1)
      [Event.unrecognized "bogus"] [] [] "bogus" (by decide) rfl,
   (C4_unrecognized pairCmdReg ["prog", "bogus", "b"]).2 2 1 true "bogus"
      (by decide) (by simp [pairCmdReg, lookupCmd])⟩

/-! ### Parameter conversions -/

/-- The two halves of `takeDigits` rebuild the input. -/
theorem takeDigits_eq_append (l : List Char) :
    (takeDigits l).1 ++ (takeDigits l).2 = l := by
  induction l with
  | nil => rfl
  | cons c cs ih =>
    by_cases h : c.isDigit
    · simp [takeDigits, h, ih]
    · simp [takeDigits, h]

/-- Every character `takeDigits` collects is a digit. -/
theorem takeDigits_all_digit (l : List Char) :
    ∀ c ∈ (takeDigits l).1, c.isDigit = true := by
  induction l with
  | nil =>
    intro c hc
    simp [takeDigits] at hc
  | cons c0 cs ih =>
    intro c hc
    by_cases h : c0.isDigit
    · simp only [takeDigits, h, if_pos] at hc
      rcases List.mem_cons.mp (by simpa using hc) with rfl | hc2
      · exact h
      · exact ih c hc2
    · simp [takeDigits, h] at hc

/-- The remainder `takeDigits` leaves does not start with a digit. -/
theorem takeDigits_head_not (l : List Char) :
    headNotDigit (takeDigits l).2 = true := by
  induction l with
  | nil => rfl
  | cons c0 cs ih =>
    by_cases h : c0.isDigit
    · simpa [takeDigits, h] using ih
    · simp [takeDigits, h, headNotDigit]

/-- `takeDigits` splits a digit run followed by a non-digit remainder
exactly there. -/
theorem takeDigits_append_of (ds rest : List Char)
    (h1 : ∀ c ∈ ds, c.isDigit = true) (h2 : headNotDigit rest = true) :
    takeDigits (ds ++ rest) = (ds, rest) := by
  induction ds with
  | nil =>
    cases rest with
    | nil => rfl
    | cons c cs =>
      have hc : c.isDigit = false := by simpa [headNotDigit] using h2
      simp [takeDigits, hc]
  | cons d ds ih =>
    have hd : d.isDigit = true := h1 d (List.mem_cons_self d ds)
    have ih2 := ih (fun c hc => h1 c (List.mem_cons_of_mem d hc))
    simp [takeDigits, hd, ih2]

/-- Dropping a satisfying prefix is absorbed by `dropWhile`. -/
theorem dropWhile_append_all {p : Char → Bool} (ws l : List Char)
    (h : ∀ c ∈ ws, p c = true) :
    (ws ++ l).dropWhile p = l.dropWhile p := by
  induction ws with
  | nil => rfl
  | cons c cs ih =>
    have hc : p c = true := h c (List.mem_cons_self c cs)
    have ih2 := ih (fun c2 h2 => h c2 (List.mem_cons_of_mem c h2))
    simp [List.dropWhile_cons, hc, ih2]

/-- `dropWhile` stops at a failing head. -/
theorem dropWhile_cons_neg {p : Char → Bool} {c : Char} (l : List Char)
    (h : p c = false) : (c :: l).dropWhile p = c :: l := by
  simp [List.dropWhile_cons, h]

/-- A digit is not stream whitespace. -/
theorem isDigit_not_space {c : Char} (h : c.isDigit = true) :
    isStreamSpace c = false := by
  by_contra hs
  have hs2 : isStreamSpace c = true := by
    cases hb : isStreamSpace c
    · exact absurd hb hs
    · rfl
  simp only [isStreamSpace, Bool.or_eq_true, decide_eq_true_eq] at hs2
  rcases hs2 with ((((rfl | rfl) | rfl) | rfl) | rfl) | rfl <;> exact absurd h (by decide)

/-- A digit is neither sign character. -/
theorem isDigit_not_sign {c : Char} (h : c.isDigit = true) :
    c ≠ '-' ∧ c ≠ '+' := by
  constructor <;> rintro rfl <;> exact absurd h (by decide)

/-- `splitSign` leaves a non-sign head alone. -/
theorem splitSign_not_sign {c : Char} (l : List Char)
    (h1 : c ≠ '-') (h2 : c ≠ '+') : splitSign (c :: l) = (false, c :: l) := by
  simp [splitSign, h1, h2]

/-- Any list decomposes as an optional sign prefix plus what `splitSign`
returns, and the negativity flag records exactly a leading `-`. -/
theorem splitSign_decomp (l : List Char) :
    ∃ sgn, SignChars sgn ∧ l = sgn ++ (splitSign l).2 ∧
      ((splitSign l).1 = true ↔ sgn = ['-']) := by
  cases l with
  | nil => exact ⟨[], Or.inl rfl, rfl, by simp [splitSign]⟩
  | cons c cs =>
    by_cases h1 : c = '-'
    · subst h1
      exact ⟨['-'], Or.inr (Or.inr rfl), by simp [splitSign], by simp [splitSign]⟩
    · by_cases h2 : c = '+'
      · subst h2
        exact ⟨['+'], Or.inr (Or.inl rfl), by simp [splitSign], by simp [splitSign]⟩
      · exact ⟨[], Or.inl rfl, by simp [splitSign, h1, h2], by simp [splitSign, h1, h2]⟩

/-- Evaluation of `extractInt64` once the whitespace and sign have been
peeled off and the digit run located. -/
theorem extractInt64_core (cs : List Char) (neg : Bool) (ds rest : List Char)
    (hsp : splitSign (cs.dropWhile isStreamSpace) = (neg, ds ++ rest))
    (hds : ds ≠ []) (hdig : ∀ c ∈ ds, c.isDigit = true)
    (hrest : headNotDigit rest = true) :
    extractInt64 cs =
      (if (if neg then -(digitsVal ds : Int) else (digitsVal ds : Int)) < int64Min then
        ⟨int64Min, false⟩
      else if int64Max < (if neg then -(digitsVal ds : Int) else (digitsVal ds : Int)) then
        ⟨int64Max, false⟩
      else ⟨if neg then -(digitsVal ds : Int) else (digitsVal ds : Int), true⟩) := by
  have htd : takeDigits (ds ++ rest) = (ds, rest) := takeDigits_append_of ds rest hdig hrest
  simp only [extractInt64, hsp, htd]
  rw [if_neg (by simp [hds])]

/-- Completeness of the integer extraction: a whitespace-sign-digits
prefix in range parses to its denoted value with `result = true`. -/
theorem extractInt64_of_rep (ws sgn ds rest : List Char)
    (hws : ∀ c ∈ ws, isStreamSpace c = true)
    (hsgn : SignChars sgn)
    (hds : ds ≠ []) (hdig : ∀ c ∈ ds, c.isDigit = true)
    (hrest : headNotDigit rest = true)
    (hlo : int64Min ≤ signFactor sgn * (digitsVal ds : Int))
    (hhi : signFactor sgn * (digitsVal ds : Int) ≤ int64Max) :
    extractInt64 (ws ++ sgn ++ ds ++ rest) =
      ⟨signFactor sgn * (digitsVal ds : Int), true⟩ := by
  obtain ⟨d, ds2, rfl⟩ : ∃ d ds2, ds = d :: ds2 := by
    cases ds with
    | nil => exact absurd rfl hds
    | cons d ds2 => exact ⟨d, ds2, rfl⟩
  have hd : d.isDigit = true := hdig d (List.mem_cons_self d ds2)
  have hdnsp : isStreamSpace d = false := isDigit_not_space hd
  have hdsign := isDigit_not_sign hd
  rcases hsgn with rfl | rfl | rfl
  · have h1 : (ws ++ [] ++ (d :: ds2) ++ rest).dropWhile isStreamSpace =
        (d :: ds2) ++ rest := by
      have e : ws ++ [] ++ (d :: ds2) ++ rest = ws ++ ((d :: ds2) ++ rest) := by simp
      rw [e, dropWhile_append_all ws _ hws]
      exact dropWhile_cons_neg (ds2 ++ rest) hdnsp
    have hsp : splitSign ((ws ++ [] ++ (d :: ds2) ++ rest).dropWhile isStreamSpace) =
        (false, (d :: ds2) ++ rest) := by
      rw [h1]
      exact splitSign_not_sign (ds2 ++ rest) hdsign.1 hdsign.2
    have hcore := extractInt64_core _ false (d :: ds2) rest hsp hds hdig hrest
    have hlo2 : int64Min ≤ (digitsVal (d :: ds2) : Int) := by
      simpa [signFactor] using hlo
    have hhi2 : (digitsVal (d :: ds2) : Int) ≤ int64Max := by
      simpa [signFactor] using hhi
    have e1 : (if (false : Bool) = true then -(digitsVal (d :: ds2) : Int)
        else (digitsVal (d :: ds2) : Int)) = (digitsVal (d :: ds2) : Int) := by simp
    rw [hcore, e1, if_neg (Int.not_lt.mpr hlo2), if_neg (Int.not_lt.mpr hhi2)]
    simp [signFactor]
  · have h1 : (ws ++ ['+'] ++ (d :: ds2) ++ rest).dropWhile isStreamSpace =
        '+' :: ((d :: ds2) ++ rest) := by
      have e : ws ++ ['+'] ++ (d :: ds2) ++ rest = ws ++ ('+' :: ((d :: ds2) ++ rest)) := by
        simp
      rw [e, dropWhile_append_all ws _ hws]
      exact dropWhile_cons_neg _ (by decide)
    have hsp : splitSign ((ws ++ ['+'] ++ (d :: ds2) ++ rest).dropWhile isStreamSpace) =
        (false, (d :: ds2) ++ rest) := by
      rw [h1]
      simp [splitSign]
    have hcore := extractInt64_core _ false (d :: ds2) rest hsp hds hdig hrest
    have hlo2 : int64Min ≤ (digitsVal (d :: ds2) : Int) := by
      simpa [signFactor] using hlo
    have hhi2 : (digitsVal (d :: ds2) : Int) ≤ int64Max := by
      simpa [signFactor] using hhi
    have e1 : (if (false : Bool) = true then -(digitsVal (d :: ds2) : Int)
        else (digitsVal (d :: ds2) : Int)) = (digitsVal (d :: ds2) : Int) := by simp
    rw [hcore, e1, if_neg (Int.not_lt.mpr hlo2), if_neg (Int.not_lt.mpr hhi2)]
    simp [signFactor]
  · have h1 : (ws ++ ['-'] ++ (d :: ds2) ++ rest).dropWhile isStreamSpace =
        '-' :: ((d :: ds2) ++ rest) := by
      have e : ws ++ ['-'] ++ (d :: ds2) ++ rest = ws ++ ('-' :: ((d :: ds2) ++ rest)) := by
        simp
      rw [e, dropWhile_append_all ws _ hws]
      exact dropWhile_cons_neg _ (by decide)
    have hsp : splitSign ((ws ++ ['-'] ++ (d :: ds2) ++ rest).dropWhile isStreamSpace) =
        (true, (d :: ds2) ++ rest) := by
      rw [h1]
      simp [splitSign]
    have hcore := extractInt64_core _ true (d :: ds2) rest hsp hds hdig hrest
    have hlo2 : int64Min ≤ -(digitsVal (d :: ds2) : Int) := by
      simpa [signFactor] using hlo
    have hhi2 : -(digitsVal (d :: ds2) : Int) ≤ int64Max := by
      simpa [signFactor] using hhi
    have e1 : (if (true : Bool) = true then -(digitsVal (d :: ds2) : Int)
        else (digitsVal (d :: ds2) : Int)) = -(digitsVal (d :: ds2) : Int) := by simp
    rw [hcore, e1, if_neg (Int.not_lt.mpr hlo2), if_neg (Int.not_lt.mpr hhi2)]
    simp [signFactor]

/-- Soundness of the integer extraction: `result = true` exhibits a
whitespace-sign-digits decomposition denoting the returned value. -/
theorem AsInt_result_sound (s : String) (h : (Param.AsInt s).result = true) :
    IntRepPrefix s ((Param.AsInt s).value) := by
  rcases hsd : splitSign (s.data.dropWhile isStreamSpace) with ⟨neg, csr⟩
  have hcsr : (takeDigits csr).1 ++ (takeDigits csr).2 = csr := takeDigits_eq_append csr
  have hdig : ∀ c ∈ (takeDigits csr).1, c.isDigit = true := takeDigits_all_digit csr
  have hrest : headNotDigit (takeDigits csr).2 = true := takeDigits_head_not csr
  by_cases hds : (takeDigits csr).1 = []
  · exfalso
    have hval : extractInt64 s.data = ⟨0, false⟩ := by
      simp only [extractInt64, hsd]
      rw [if_pos (by simp [hds])]
    have h2 : (Param.AsInt s).result = false := by
      show (extractInt64 s.data).result = false
      rw [hval]
    rw [h2] at h
    exact absurd h (by simp)
  · have hsp2 : splitSign (s.data.dropWhile isStreamSpace) =
        (neg, (takeDigits csr).1 ++ (takeDigits csr).2) := by
      rw [hsd, hcsr]
    have hcore := extractInt64_core s.data neg (takeDigits csr).1 (takeDigits csr).2
      hsp2 hds hdig hrest
    by_cases h1 : (if neg then -(digitsVal (takeDigits csr).1 : Int)
        else (digitsVal (takeDigits csr).1 : Int)) < int64Min
    · exfalso
      have h2 : (Param.AsInt s).result = false := by
        show (extractInt64 s.data).result = false
        rw [hcore, if_pos h1]
      rw [h2] at h
      exact absurd h (by simp)
    · by_cases h2 : int64Max < (if neg then -(digitsVal (takeDigits csr).1 : Int)
          else (digitsVal (takeDigits csr).1 : Int))
      · exfalso
        have h3 : (Param.AsInt s).result = false := by
          show (extractInt64 s.data).result = false
          rw [hcore, if_neg h1, if_pos h2]
        rw [h3] at h
        exact absurd h (by simp)
      · have hval : Param.AsInt s =
            ⟨if neg then -(digitsVal (takeDigits csr).1 : Int)
              else (digitsVal (takeDigits csr).1 : Int), true⟩ := by
          show extractInt64 s.data = _
          rw [hcore, if_neg h1, if_neg h2]
        obtain ⟨sgn, hsgnc, hdecomp, hneg⟩ := splitSign_decomp (s.data.dropWhile isStreamSpace)
        have hneg2 : neg = true ↔ sgn = ['-'] := by
          rw [hsd] at hneg
          simpa using hneg
        have hdec2 : s.data.dropWhile isStreamSpace = sgn ++ csr := by
          rw [hsd] at hdecomp
          simpa using hdecomp
        refine ⟨s.data.takeWhile isStreamSpace, sgn, (takeDigits csr).1, (takeDigits csr).2,
          ?_, fun c hc => List.mem_takeWhile_imp hc, hsgnc, hds, hdig, hrest, ?_, ?_, ?_⟩
        · have hc1 : s.data.takeWhile isStreamSpace ++ s.data.dropWhile isStreamSpace =
              s.data := List.takeWhile_append_dropWhile isStreamSpace s.data
          rw [hdec2, ← hcsr] at hc1
          conv_lhs => rw [← hc1]
          simp [List.append_assoc]
        · rw [hval]
          by_cases hn : neg = true
          · have h5 : sgn = ['-'] := hneg2.mp hn
            simp [hn, h5, signFactor]
          · have h5 : sgn ≠ ['-'] := fun hh => hn (hneg2.mpr hh)
            simp only [hn, if_false]
            simp [signFactor, h5]
        · rw [hval]
          exact Int.not_lt.mp h1
        · rw [hval]
          exact Int.not_lt.mp h2

/-- Soundness of the double extraction's flag: success requires a digit
or a decimal point right after the whitespace and optional sign. -/
theorem AsRealResult_sound (s : String) (h : Param.AsRealResult s = true) :
    ∃ ws sgn c rest, s.data = ws ++ sgn ++ c :: rest ∧
      (∀ c2 ∈ ws, isStreamSpace c2 = true) ∧ SignChars sgn ∧
      (c.isDigit = true ∨ c = '.') := by
  rcases hsd : splitSign (s.data.dropWhile isStreamSpace) with ⟨neg, csr⟩
  obtain ⟨sgn, hsgnc, hdecomp, _⟩ := splitSign_decomp (s.data.dropWhile isStreamSpace)
  have hdec2 : s.data.dropWhile isStreamSpace = sgn ++ csr := by
    rw [hsd] at hdecomp
    simpa using hdecomp
  have hc1 : s.data.takeWhile isStreamSpace ++ s.data.dropWhile isStreamSpace = s.data :=
    List.takeWhile_append_dropWhile isStreamSpace s.data
  cases csr with
  | nil =>
    exfalso
    have hval : extractRealResult s.data = false := by
      simp [extractRealResult, hsd, takeDigits]
    have h2 : Param.AsRealResult s = false := hval
    rw [h2] at h
    exact absurd h (by simp)
  | cons c csr2 =>
    by_cases hd : c.isDigit = true
    · refine ⟨s.data.takeWhile isStreamSpace, sgn, c, csr2, ?_,
        fun c2 hc2 => List.mem_takeWhile_imp hc2, hsgnc, Or.inl hd⟩
      rw [hdec2] at hc1
      conv_lhs => rw [← hc1]
      simp [List.append_assoc]
    · by_cases hdot : c = '.'
      · refine ⟨s.data.takeWhile isStreamSpace, sgn, c, csr2, ?_,
          fun c2 hc2 => List.mem_takeWhile_imp hc2, hsgnc, Or.inr hdot⟩
        rw [hdec2] at hc1
        conv_lhs => rw [← hc1]
        simp [List.append_assoc]
      · exfalso
        have hd2 : c.isDigit = false := by
          cases hb : c.isDigit
          · rfl
          · exact absurd hb hd
        have htd2 : takeDigits (c :: csr2) = ([], c :: csr2) := by
          simp [takeDigits, hd2]
        have hval : extractRealResult s.data = false := by
          simp [extractRealResult, hsd, htd2, hdot]
        have h2 : Param.AsRealResult s = false := hval
        rw [h2] at h
        exact absurd h (by simp)

/-- Claim C7 counterexample: the claim requires `result = false` on
`"13abc"` (trailing non-numeric text), but stream extraction performs a
prefix parse: `Param::Int` on `"13abc"` succeeds with value 13. -/
theorem C7_counterexample : Param.AsInt "13abc" = ⟨13, true⟩ := by
  decide

/-- Claim C7 (corrected/amended): the conversions return `result = true`
exactly when a valid representation of the requested type forms a prefix
of the parameter string — trailing text is ignored (`"13abc"` parses as
13 with `result = true`), while fully non-numeric text still yields
`result = false`; no exception is involved, every failure is reported
through `result`.  For `Int`: success exactly for a whitespace-sign-digit
prefix in `int64_t` range, returning its value; for `Bool` (no
`boolalpha`): success exactly when the underlying integer parse succeeds
with value 0 or 1; for `Real`: success requires a digit or decimal point
after the whitespace and optional sign. -/
theorem C7_prefix_parse :
    (∀ (s : String) (v : Int), IntRepPrefix s v → Param.AsInt s = ⟨v, true⟩) ∧
    (∀ s : String, (Param.AsInt s).result = true → IntRepPrefix s ((Param.AsInt s).value)) ∧
    (∀ s : String, (Param.AsBool s).result = true ↔
      ((Param.AsInt s).result = true ∧
        ((Param.AsInt s).value = 0 ∨ (Param.AsInt s).value = 1))) ∧
    (∀ s : String, Param.AsRealResult s = true →
      ∃ ws sgn c rest, s.data = ws ++ sgn ++ c :: rest ∧
        (∀ c2 ∈ ws, isStreamSpace c2 = true) ∧ SignChars sgn ∧
        (c.isDigit = true ∨ c = '.')) := by
  refine ⟨?_, AsInt_result_sound, ?_, AsRealResult_sound⟩
  · intro s v hrep
    obtain ⟨ws, sgn, ds, rest, hdata, hws, hsgn, hds, hdig, hrest, hv, hlo, hhi⟩ := hrep
    subst hv
    show extractInt64 s.data = _
    rw [hdata]
    exact extractInt64_of_rep ws sgn ds rest hws hsgn hds hdig hrest hlo hhi
  · intro s
    show (let p := extractInt64 s.data
      if p.value = 0 then (⟨false, p.result⟩ : Parse Bool)
      else if p.value = 1 then ⟨true, p.result⟩
      else ⟨true, false⟩).result = true ↔ _
    rcases hp : extractInt64 s.data with ⟨v, r⟩
    show ((if v = 0 then (⟨false, r⟩ : Parse Bool)
      else if v = 1 then ⟨true, r⟩ else ⟨true, false⟩).result = true ↔
        ((extractInt64 s.data).result = true ∧
          ((extractInt64 s.data).value = 0 ∨ (extractInt64 s.data).value = 1)))
    rw [hp]
    by_cases h0 : v = 0
    · subst h0
      simp
    · by_cases h1 : v = 1
      · subst h1
        simp
      · simp [h0, h1]

/-- Witness for C7's amended theorem: `" -7x"` parses to `-7` with
`result = true` through the whitespace-sign-digits-prefix clause. -/
theorem C7_prefix_parse_witness : Param.AsInt " -7x" = ⟨-7, true⟩ :=
  C7_prefix_parse.1 " -7x" (-7)
    ⟨[' '], ['-'], ['7'], ['x'], by decide, by decide, Or.inr (Or.inr rfl), by decide,
      by decide, by decide, by decide, by decide, by decide⟩

end cc0.cmd
